import Mathlib

/-!
Shallow embedding of the Tel-Ran "First Steps in Python and AI" homework
programs (the lesson-1 console ATM with its JSON store, the lesson-1 stream
I/O helpers, and the lesson-2 smart-fan simulator), together with proofs of
their specified properties.
-/

namespace ATM

/-- The `Account` dataclass from `lesson1/hw.py`: one persisted bank-account
record. -/
structure Account where
  account_number : String
  name : String
  surname : String
  id_number : String
  pin_salt_hex : String
  pin_hash_hex : String
  balance_cents : Int
  created_at : String
deriving DecidableEq, Repr

/-- The `accounts` mapping of the store document at the typed level: an
association list from account number to record, insertion ordered like a
Python `dict`. -/
abbrev Accounts := List (String × Account)

/-- `dict.get` on the accounts mapping. -/
def lookupAccount : Accounts → String → Option Account
  | [], _ => none
  | (k, a) :: rest, key => if k = key then some a else lookupAccount rest key

/-- `JsonStorage.get_account`: load the document and reconstruct the record
stored under the given number (`None` when absent). -/
def get_account (st : Accounts) (account_number : String) : Option Account :=
  lookupAccount st account_number

/-- Python `dict` assignment `data["accounts"][k] = v`: overwrite in place,
or append a fresh key at the end. -/
def dictInsert : Accounts → String → Account → Accounts
  | [], k, a => [(k, a)]
  | (k', a') :: rest, k, a =>
      if k' = k then (k, a) :: rest else (k', a') :: dictInsert rest k a

/-- `JsonStorage.upsert_account`: store the record under its own number and
persist the document. -/
def upsert_account (st : Accounts) (a : Account) : Accounts :=
  dictInsert st a.account_number a

/-- `JsonStorage.account_exists`: key membership in the accounts mapping. -/
def account_exists (st : Accounts) (account_number : String) : Bool :=
  (lookupAccount st account_number).isSome

/-- The decimal digit character for `n % 10` (how `str` renders one digit). -/
def digitChar (n : Nat) : Char := Char.ofNat (48 + n)

/-- Fueled helper for `natStr`; the fuel bounds the recursion depth. -/
def natStrAux : Nat → Nat → List Char
  | 0, _ => []
  | fuel + 1, n =>
      if n < 10 then [digitChar n]
      else natStrAux fuel (n / 10) ++ [digitChar (n % 10)]

/-- Python `str(n)` for a nonnegative integer, as a list of characters. -/
def natStr (n : Nat) : List Char := natStrAux (n + 1) n

/-- The `:02d` two-digit zero-padded rendering used by `format_money`. -/
def pad2 (n : Nat) : List Char :=
  let s := natStr n
  List.replicate (2 - s.length) '0' ++ s

/-- `ConsoleView.format_money`: sign, whole units, a dot, two fraction
digits. -/
def format_money (cents : Int) : String :=
  let sign := if cents < 0 then "-" else ""
  let centsAbs := cents.natAbs
  sign ++ String.mk (natStr (centsAbs / 100)) ++ "." ++ String.mk (pad2 (centsAbs % 100))

/-- `ConsoleView.error`: the message with its `[Ошибка]` marker. -/
def viewErrorMsg (m : String) : String := "[Ошибка] " ++ m

/-- The `ConsoleView.show_balance` line. -/
def showBalanceMsg (balance_cents : Int) : String :=
  "Текущий баланс: " ++ format_money balance_cents

/-- Outcome of one iteration of the `ATMController.flow_session` loop. -/
structure StepResult where
  account : Account
  store : Accounts
  output : List String
  leaves : Bool
deriving Repr

/-- One iteration of the `ATMController.flow_session` loop, given the menu
choice read from the user and, for choices `"1"` and `"2"`, the amount that
`ask_money_amount` returned. -/
def flow_session_step (account : Account) (store : Accounts) (choice : String)
    (amount : Int) : StepResult :=
  if choice = "1" then
    if amount ≤ 0 then
      ⟨account, store, [viewErrorMsg "Сумма пополнения должна быть больше 0."], false⟩
    else
      let account' := { account with balance_cents := account.balance_cents + amount }
      ⟨account', upsert_account store account',
        ["Зачислено: " ++ format_money amount, showBalanceMsg account'.balance_cents], false⟩
  else if choice = "2" then
    if amount ≤ 0 then
      ⟨account, store, [viewErrorMsg "Сумма снятия должна быть больше 0."], false⟩
    else if amount > account.balance_cents then
      ⟨account, store,
        [viewErrorMsg "Недостаточно средств.", showBalanceMsg account.balance_cents], false⟩
    else
      let account' := { account with balance_cents := account.balance_cents - amount }
      ⟨account', upsert_account store account',
        ["Выдано: " ++ format_money amount, showBalanceMsg account'.balance_cents], false⟩
  else if choice = "3" then
    ⟨account, store, [showBalanceMsg account.balance_cents], false⟩
  else if choice = "0" then
    ⟨account, store, ["Выход в главное меню."], true⟩
  else
    ⟨account, store, [viewErrorMsg "Неизвестный пункт меню."], false⟩

/-- The record built inside `ATMController.flow_create_account` before the
initial deposit: freshly generated number, PIN credentials, balance `0`. -/
def mkNewAccount (account_number name surname id_number salt_hex hash_hex
    created_at : String) : Account :=
  { account_number := account_number, name := name, surname := surname,
    id_number := id_number, pin_salt_hex := salt_hex, pin_hash_hex := hash_hex,
    balance_cents := 0, created_at := created_at }

/-- The optional initial-deposit step at the end of `flow_create_account`:
a positive amount is added and persisted, otherwise nothing changes. -/
def initial_deposit (account : Account) (store : Accounts) (deposit : Int) :
    Account × Accounts :=
  if 0 < deposit then
    let account' := { account with balance_cents := account.balance_cents + deposit }
    (account', upsert_account store account')
  else (account, store)

/-- `ATMController.flow_create_account`: build the record, persist it with
balance `0`, then apply the optional initial deposit. -/
def flow_create_account (account_number name surname id_number salt_hex hash_hex
    created_at : String) (store : Accounts) (deposit : Int) : Account × Accounts :=
  let account := mkNewAccount account_number name surname id_number salt_hex hash_hex created_at
  let store1 := upsert_account store account
  initial_deposit account store1 deposit

/-- Every record persisted in the store has a nonnegative balance. -/
def StoreNonneg (st : Accounts) : Prop := ∀ p ∈ st, 0 ≤ p.2.balance_cents

/-- A concrete account record used to instantiate witnesses. -/
def sampleAccount : Account :=
  { account_number := "0000000123", name := "Kirill", surname := "Momotov",
    id_number := "ID123", pin_salt_hex := "00", pin_hash_hex := "11",
    balance_cents := 100, created_at := "2025-01-01T00:00:00+00:00" }

/-- JSON values as produced by a successful `json.load`. -/
inductive Json where
  | null : Json
  | bool (b : Bool) : Json
  | num (n : Int) : Json
  | str (s : String) : Json
  | arr (xs : List Json) : Json
  | obj (kvs : List (String × Json)) : Json
deriving Repr

/-- Python exceptions that can escape `JsonStorage.load`. -/
inductive PyError where
  | jsonDecodeError : PyError
  | typeError : PyError
  | keyError : PyError
deriving DecidableEq, Repr

/-- Python `==` between a JSON value and a string (used by list membership). -/
def jsonEqStr (j : Json) (s : String) : Bool :=
  match j with
  | .str t => t == s
  | _ => false

/-- Whether `xs` begins with `ys` (character-wise). -/
def charsLead : List Char → List Char → Bool
  | [], _ => true
  | _ :: _, [] => false
  | x :: xs, y :: ys => x == y && charsLead xs ys

/-- Python substring containment `needle in haystack`. -/
def strHas (needle : List Char) : List Char → Bool
  | [] => needle.isEmpty
  | y :: ys => charsLead needle (y :: ys) || strHas needle ys

/-- Python `key in data` on a value loaded from JSON: key membership for
objects, element membership for arrays, substring test for strings, and a
`TypeError` for the non-iterable scalars. -/
def pyContains (data : Json) (key : String) : Except PyError Bool :=
  match data with
  | .obj kvs => .ok (kvs.any (fun p => p.1 == key))
  | .arr xs => .ok (xs.any (fun j => jsonEqStr j key))
  | .str s => .ok (strHas key.toList s.toList)
  | _ => .error .typeError

/-- Lookup in a JSON object's field list. -/
def lookupJson : List (String × Json) → String → Option Json
  | [], _ => none
  | (k, v) :: rest, key => if k = key then some v else lookupJson rest key

/-- Python subscript `data[key]` with a string key. -/
def pySubscript (data : Json) (key : String) : Except PyError Json :=
  match data with
  | .obj kvs =>
      match lookupJson kvs key with
      | some v => .ok v
      | none => .error .keyError
  | _ => .error .typeError

/-- `isinstance(v, dict)`. -/
def isDict : Json → Bool
  | .obj _ => true
  | _ => false

/-- The state of the backing file as `JsonStorage.load` finds it. -/
inductive FileState where
  | absent : FileState
  | notJson : FileState
  | json (data : Json) : FileState

/-- The empty store document shape produced by `load`. -/
def emptyDoc : Json := .obj [("accounts", .obj [])]

/-- `JsonStorage.load`: an absent file yields the empty document; otherwise
`json.load` runs (raising on non-JSON content), and a document without an
`accounts` mapping is replaced by the empty document. -/
def load (fs : FileState) : Except PyError Json :=
  match fs with
  | .absent => .ok emptyDoc
  | .notJson => .error .jsonDecodeError
  | .json data =>
      match pyContains data "accounts" with
      | .error e => .error e
      | .ok c =>
          if ¬ c then .ok emptyDoc
          else
            match pySubscript data "accounts" with
            | .error e => .error e
            | .ok v => if ¬ isDict v then .ok emptyDoc else .ok data

/-- `str.zfill` for a sign-less digit string: left-pad with zeros up to the
requested width. -/
def zfill (width : Nat) (s : List Char) : List Char :=
  List.replicate (width - s.length) '0' ++ s

/-- `JsonStorage.generate_unique_account_number`, with the stream of
`secrets.randbelow(10 ** digits)` draws made explicit; `none` models the
finite stream running out (the real loop would keep drawing). -/
def generate_unique_account_number (st : Accounts) (digits : Nat) :
    List Nat → Option String
  | [] => none
  | n :: rest =>
      let acc := String.mk (zfill digits (natStr n))
      if account_exists st acc then generate_unique_account_number st digits rest
      else some acc

/-- Truncation to a 32-bit word. -/
def w32 (n : Nat) : Nat := n % 4294967296

/-- 32-bit right rotation. -/
def rotr32 (x n : Nat) : Nat := w32 ((x >>> n) ||| (x <<< (32 - n)))

/-- The SHA-256 choice function. -/
def shaCh (x y z : Nat) : Nat := (x &&& y) ^^^ ((x ^^^ 4294967295) &&& z)

/-- The SHA-256 majority function. -/
def shaMaj (x y z : Nat) : Nat := (x &&& y) ^^^ (x &&& z) ^^^ (y &&& z)

/-- The SHA-256 Σ0 word function. -/
def bigSigma0 (x : Nat) : Nat := rotr32 x 2 ^^^ rotr32 x 13 ^^^ rotr32 x 22

/-- The SHA-256 Σ1 word function. -/
def bigSigma1 (x : Nat) : Nat := rotr32 x 6 ^^^ rotr32 x 11 ^^^ rotr32 x 25

/-- The SHA-256 σ0 word function. -/
def smallSigma0 (x : Nat) : Nat := rotr32 x 7 ^^^ rotr32 x 18 ^^^ (x >>> 3)

/-- The SHA-256 σ1 word function. -/
def smallSigma1 (x : Nat) : Nat := rotr32 x 17 ^^^ rotr32 x 19 ^^^ (x >>> 10)

/-- The 64 SHA-256 round constants. -/
def shaK : List Nat :=
  [1116352408, 1899447441, 3049323471, 3921009573,
   961987163, 1508970993, 2453635748, 2870763221,
   3624381080, 310598401, 607225278, 1426881987,
   1925078388, 2162078206, 2614888103, 3248222580,
   3835390401, 4022224774, 264347078, 604807628,
   770255983, 1249150122, 1555081692, 1996064986,
   2554220882, 2821834349, 2952996808, 3210313671,
   3336571891, 3584528711, 113926993, 338241895,
   666307205, 773529912, 1294757372, 1396182291,
   1695183700, 1986661051, 2177026350, 2456956037,
   2730485921, 2820302411, 3259730800, 3345764771,
   3516065817, 3600352804, 4094571909, 275423344,
   430227734, 506948616, 659060556, 883997877,
   958139571, 1322822218, 1537002063, 1747873779,
   1955562222, 2024104815, 2227730452, 2361852424,
   2428436474, 2756734187, 3204031479, 3329325298]

/-- The SHA-256 initial hash state. -/
def shaH0 : List Nat :=
  [1779033703, 3144134277, 1013904242, 2773480762,
   1359893119, 2600822924, 528734635, 1541459225]

/-- Big-endian bytes to 32-bit words. -/
def bytesToWords : List Nat → List Nat
  | b0 :: b1 :: b2 :: b3 :: rest =>
      (((b0 * 256 + b1) * 256 + b2) * 256 + b3) :: bytesToWords rest
  | _ => []

/-- Extension of the 16-word message block to the 64-word schedule. -/
def extendW : List Nat → Nat → List Nat
  | w, 0 => w
  | w, k + 1 =>
      let i := w.length
      let wi := w32 (smallSigma1 (w.getD (i - 2) 0) + w.getD (i - 7) 0 +
        smallSigma0 (w.getD (i - 15) 0) + w.getD (i - 16) 0)
      extendW (w ++ [wi]) k

/-- One SHA-256 compression round on the 8-word working state. -/
def roundStep (st : List Nat) (kw : Nat × Nat) : List Nat :=
  match st with
  | [a, b, c, d, e, f, g, h] =>
      let t1 := w32 (h + bigSigma1 e + shaCh e f g + kw.1 + kw.2)
      let t2 := w32 (bigSigma0 a + shaMaj a b c)
      [w32 (t1 + t2), a, b, c, w32 (d + t1), e, f, g]
  | other => other

/-- Compression of one 64-byte block into the hash state. -/
def compressBlock (hs : List Nat) (block : List Nat) : List Nat :=
  let ws := extendW (bytesToWords block) 48
  let st := (shaK.zip ws).foldl roundStep hs
  (hs.zip st).map (fun p => w32 (p.1 + p.2))

/-- Fueled split of the padded message into 64-byte blocks. -/
def splitBlocksAux : Nat → List Nat → List (List Nat)
  | 0, _ => []
  | _, [] => []
  | fuel + 1, bs => bs.take 64 :: splitBlocksAux fuel (bs.drop 64)

/-- Split of the padded message into 64-byte blocks. -/
def splitBlocks (bs : List Nat) : List (List Nat) := splitBlocksAux bs.length bs

/-- A 64-bit value as 8 big-endian bytes. -/
def beBytes8 (n : Nat) : List Nat :=
  [n / 72057594037927936 % 256, n / 281474976710656 % 256, n / 1099511627776 % 256,
   n / 4294967296 % 256, n / 16777216 % 256, n / 65536 % 256, n / 256 % 256, n % 256]

/-- SHA-256 message padding: `0x80`, zeros, and the 64-bit bit length. -/
def padMessage (msg : List Nat) : List Nat :=
  let padZeros := (64 - (msg.length + 9) % 64) % 64
  msg ++ [128] ++ List.replicate padZeros 0 ++ beBytes8 (msg.length * 8)

/-- A 32-bit word as 4 big-endian bytes. -/
def wordToBytes (w : Nat) : List Nat :=
  [w / 16777216 % 256, w / 65536 % 256, w / 256 % 256, w % 256]

/-- `hashlib.sha256(msg).digest()` as a list of byte values (checked against
the FIPS 180-4 test vectors during development). -/
def sha256 (msg : List Nat) : List Nat :=
  (((splitBlocks (padMessage msg)).foldl compressBlock shaH0).map wordToBytes).flatten

/-- The lowercase hexadecimal digit for `n < 16` (as `bytes.hex` writes it). -/
def hexChar (n : Nat) : Char := if n < 10 then Char.ofNat (48 + n) else Char.ofNat (87 + n)

/-- One byte as two lowercase hex digits. -/
def byteToHexPair (b : Nat) : List Char := [hexChar (b / 16), hexChar (b % 16)]

/-- `bytes.hex()`: lowercase hexadecimal rendering of a byte string. -/
def bytesToHex (bs : List Nat) : String := String.mk ((bs.map byteToHexPair).flatten)

/-- The value of one hexadecimal digit as `bytes.fromhex` reads it. -/
def hexVal (c : Char) : Option Nat :=
  if '0' ≤ c ∧ c ≤ '9' then some (c.toNat - 48)
  else if 'a' ≤ c ∧ c ≤ 'f' then some (c.toNat - 87)
  else if 'A' ≤ c ∧ c ≤ 'F' then some (c.toNat - 55)
  else none

/-- `bytes.fromhex`: pairs of hex digits with spaces allowed between pairs;
`none` models the `ValueError` on malformed input. -/
def bytesFromHex : List Char → Option (List Nat)
  | [] => some []
  | c1 :: rest1 =>
      if c1 = ' ' then bytesFromHex rest1
      else
        match rest1 with
        | [] => none
        | c2 :: rest =>
            match hexVal c1, hexVal c2 with
            | some hi, some lo => (bytesFromHex rest).map (fun bs => (16 * hi + lo) :: bs)
            | _, _ => none

/-- `secrets.compare_digest` on two byte strings: an equality test (the
constant-time execution has no observable counterpart in this model). -/
def compare_digest (a b : List Nat) : Bool := a == b

/-- `pin.encode("utf-8")` as a list of byte values. -/
def utf8Bytes (s : String) : List Nat := s.toUTF8.toList.map (fun b => b.toNat)

/-- `ATMController._hash_pin`: `sha256(salt + pin.encode("utf-8")).digest()`. -/
def hash_pin (pin : String) (salt : List Nat) : List Nat :=
  sha256 (salt ++ utf8Bytes pin)

/-- `ATMController._make_pin_record`, with the 16 random salt bytes drawn by
`secrets.token_bytes(16)` made explicit. -/
def make_pin_record (pin : String) (salt : List Nat) : String × String :=
  (bytesToHex salt, bytesToHex (hash_pin pin salt))

/-- `ATMController._verify_pin`; `none` models the `ValueError` that
`bytes.fromhex` raises on malformed stored hex fields. -/
def verify_pin (pin salt_hex hash_hex : String) : Option Bool :=
  match bytesFromHex salt_hex.toList, bytesFromHex hash_hex.toList with
  | some salt, some expected => some (compare_digest (hash_pin pin salt) expected)
  | _, _ => none

/-- Python `str.strip` whitespace test (the ASCII whitespace characters). -/
def pyIsSpace (c : Char) : Bool :=
  c == ' ' || c == '\t' || c == '\n' || c == '\r' || c == '\x0b' || c == '\x0c'

/-- Python `str.strip()`: drop whitespace from both ends. -/
def pyStrip (l : List Char) : List Char :=
  ((l.dropWhile (fun c => pyIsSpace c)).reverse.dropWhile (fun c => pyIsSpace c)).reverse

/-- `.replace(",", ".")` for the one-character pattern of `ask_money_amount`. -/
def commaToDot (l : List Char) : List Char :=
  l.map (fun c => if c = ',' then '.' else c)

/-- A parsed `decimal.Decimal` value: sign, coefficient and exponent of a
finite number, or one of the specials the constructor accepts. -/
inductive Dec where
  | num (sign : Bool) (coeff : Nat) (exp : Int) : Dec
  | nan : Dec
  | inf (sign : Bool) : Dec
deriving DecidableEq, Repr

/-- The natural number written by a digit string. -/
def natOfDigits (l : List Char) : Nat := l.foldl (fun a c => 10 * a + (c.toNat - 48)) 0

/-- Case-insensitive comparison against a lowercase keyword. -/
def lowerEq (l : List Char) (s : List Char) : Bool := (l.map Char.toLower) == s

/-- The `NaN` alternative of the `Decimal` numeric-string grammar: an optional
signaling marker, the keyword, and optional diagnostic digits. -/
def parseNaN (l : List Char) : Option Dec :=
  let l2 := match l with
    | c :: r => if c.toLower = 's' then r else l
    | [] => l
  match l2.map Char.toLower with
  | 'n' :: 'a' :: 'n' :: rest => if rest.all Char.isDigit then some .nan else none
  | _ => none

/-- The finite-number alternative of the `Decimal` numeric-string grammar:
integer digits, an optional fraction, an optional exponent, at least one
digit overall, nothing trailing. -/
def parseNumber (sign : Bool) (l : List Char) : Option Dec :=
  let intPart := l.takeWhile Char.isDigit
  let rest1 := l.dropWhile Char.isDigit
  let fracPart := match rest1 with
    | '.' :: r => r.takeWhile Char.isDigit
    | _ => []
  let rest2 := match rest1 with
    | '.' :: r => r.dropWhile Char.isDigit
    | r => r
  if intPart.length + fracPart.length = 0 then none
  else
    let coeff := natOfDigits (intPart ++ fracPart)
    match rest2 with
    | [] => some (.num sign coeff (-(fracPart.length : Int)))
    | e :: r =>
        if e = 'e' ∨ e = 'E' then
          let esign : Int := match r with
            | '-' :: _ => -1
            | _ => 1
          let r2 := match r with
            | '+' :: rr => rr
            | '-' :: rr => rr
            | rr => rr
          if ¬ r2 = [] ∧ r2.all Char.isDigit then
            some (.num sign coeff (esign * (natOfDigits r2 : Int) - (fracPart.length : Int)))
          else none
        else none

/-- The `Decimal` numeric-string grammar (the `_pydecimal` parser regular
expression): an optional sign followed by a number, an infinity or a NaN. -/
def parseDecCore (l : List Char) : Option Dec :=
  let sign := match l with
    | '-' :: _ => true
    | _ => false
  let rest := match l with
    | '+' :: r => r
    | '-' :: r => r
    | r => r
  if lowerEq rest ['i','n','f'] || lowerEq rest ['i','n','f','i','n','i','t','y'] then
    some (.inf sign)
  else match parseNaN rest with
    | some d => some d
    | none => parseNumber sign rest

/-- The `Decimal` string constructor: whitespace is stripped and underscores
removed before the grammar applies; `none` models the `InvalidOperation`
raised on a malformed string. -/
def parseDec (l : List Char) : Option Dec :=
  parseDecCore ((pyStrip l).filter (fun c => ¬ c = '_'))

/-- `len(str(coeff))`: the number of decimal digits of a coefficient. -/
def numDigits (n : Nat) : Nat := (natStr n).length

/-- Division rounded to the nearest integer, ties to even
(`ROUND_HALF_EVEN`, the default `decimal` rounding). -/
def divHalfEven (c d : Nat) : Nat :=
  let q := c / d
  let r := c % d
  if 2 * r < d then q
  else if d < 2 * r then q + 1
  else if q % 2 = 0 then q else q + 1

/-- Rounding of an ideal arithmetic result to the 28-significant-digit
precision of the default `decimal` context (half-even, with the carry that a
rounded coefficient of 29 digits is shortened once more). -/
def ctxRound (c : Nat) (e : Int) : Nat × Int :=
  if numDigits c ≤ 28 then (c, e)
  else
    let k := numDigits c - 28
    let q := divHalfEven c (10 ^ k)
    if numDigits q ≤ 28 then (q, e + k) else (q / 10, e + k + 1)

/-- `x.quantize(Decimal("1"))` on a nonnegative coefficient under the default
context: half-even rounding to exponent 0; `none` models the
`InvalidOperation` raised when the result needs more than 28 digits. -/
def quantizeToUnit (c : Nat) (e : Int) : Option Nat :=
  let q := if 0 ≤ e then c * 10 ^ e.toNat else divHalfEven c (10 ^ (-e).toNat)
  if numDigits q ≤ 28 then some q else none

/-- Outcome of one attempt of `ConsoleView.ask_money_amount` on one input
line: re-prompt, return a cents amount, or crash on an uncaught `decimal`
exception (`Overflow` from the multiplication, or `InvalidOperation` from
`quantize`). -/
inductive MoneyResult where
  | reject : MoneyResult
  | accept (cents : Int) : MoneyResult
  | crash : MoneyResult
deriving DecidableEq, Repr

/-- `int(x)` on the quantized nonnegative coefficient, with the sign of the
parsed amount applied. -/
def signApply (sign : Bool) (q : Nat) : Int := if sign then -(q : Int) else (q : Int)

/-- The quantize step of `ask_money_amount` after the context-rounded
multiplication by 100: the `Overflow` trap of the multiplication result, then
`quantize` with its own precision trap. -/
def quantizePhase (c1 : Nat) (e1 : Int) (sign : Bool) : MoneyResult :=
  if ¬ c1 = 0 ∧ 999999 < e1 + (numDigits c1 : Int) - 1 then .crash
  else
    match quantizeToUnit c1 e1 with
    | none => .crash
    | some q => .accept (signApply sign q)

/-- The arithmetic of `ask_money_amount` on a parsed finite amount: the
negative test `d < 0`, then `int((d * 100).quantize(Decimal("1")))` with the
multiplication rounded to context precision. -/
def moneyFromDec (sign : Bool) (c : Nat) (e : Int) : MoneyResult :=
  if sign ∧ 0 < c then .reject
  else quantizePhase (ctxRound (c * 100) e).1 (ctxRound (c * 100) e).2 sign

/-- `ConsoleView.ask_money_amount` on one raw input line: strip, replace the
comma, parse with `Decimal`, reject the specials and negative amounts, and
convert to cents. -/
def ask_money_amount (raw : String) : MoneyResult :=
  match parseDec (commaToDot (pyStrip raw.toList)) with
  | none => .reject
  | some .nan => .reject
  | some (.inf _) => .reject
  | some (.num sign c e) => moneyFromDec sign c e

/-- The rational value of a parsed finite `Decimal` (0 for the specials). -/
def decValue : Dec → ℚ
  | .num sign c e => (if sign then (-1 : ℚ) else 1) * (c : ℚ) * (10 : ℚ) ^ (e : Int)
  | _ => 0

end ATM

namespace LessonIO

/-- The newline stripping applied by `stdin` in `lesson1/io.py`: remove one
trailing newline and, when present, the carriage return just before it. -/
def stripNewline (line : List Char) : List Char :=
  if line.getLast? = some '\n' then
    let l1 := line.dropLast
    if l1.getLast? = some '\r' then l1.dropLast else l1
  else line

/-- The read phase of `stdin` from `lesson1/io.py`: one `readline()` result is
consumed; the empty string means end of input and raises `EOFError`, any other
line is returned with its line ending removed. -/
def stdinRead (line : List Char) : Except Unit (List Char) :=
  if line = [] then .error () else .ok (stripNewline line)

end LessonIO

namespace Fan

/-- `MIN_MODE` from `lesson2/hw.py`. -/
def MIN_MODE : Int := 0

/-- `MAX_MODE` from `lesson2/hw.py`. -/
def MAX_MODE : Int := 3

/-- `Fan.set_mode`: a target mode outside `MIN_MODE..MAX_MODE` raises
`ValueError`; otherwise the mode is stored. -/
def fan_set_mode (new_mode : Int) : Except Unit Int :=
  if new_mode < MIN_MODE ∨ MAX_MODE < new_mode then .error () else .ok new_mode

/-- `SmartFanApp._change_mode`: a target equal to the current mode is a no-op;
otherwise `Fan.set_mode` validates and stores it, and its `ValueError`
propagates before any state change. -/
def change_mode (mode new_mode : Int) : Except Unit Int :=
  if new_mode = mode then .ok mode else fan_set_mode new_mode

/-- One user command of the smart-fan controller. -/
inductive FanCmd where
  | up : FanCmd
  | down : FanCmd
  | set (m : Int) : FanCmd

/-- `SmartFanApp.up`, `SmartFanApp.down` and `SmartFanApp.set_mode`: `up`
targets the incremented mode capped at `MAX_MODE`, `down` the decremented mode
floored at `MIN_MODE`, and `set_mode` the given mode unchecked. -/
def appStep (mode : Int) : FanCmd → Except Unit Int
  | .up => change_mode mode (if MAX_MODE < mode + 1 then MAX_MODE else mode + 1)
  | .down => change_mode mode (if mode - 1 < MIN_MODE then MIN_MODE else mode - 1)
  | .set m => change_mode mode m

/-- A command sequence run the way `run_cli` drives the app: the `ValueError`
of an invalid `set_mode` is caught and the previous mode kept. -/
def runCmds : Int → List FanCmd → Int
  | mode, [] => mode
  | mode, c :: cs =>
      match appStep mode c with
      | .ok m => runCmds m cs
      | .error _ => runCmds mode cs

end Fan

namespace ATM

theorem lookupAccount_dictInsert_self (st : Accounts) (k : String) (a : Account) :
    lookupAccount (dictInsert st k a) k = some a := by
  induction st with
  | nil => simp [dictInsert, lookupAccount]
  | cons p rest ih =>
      obtain ⟨k', a'⟩ := p
      by_cases h : k' = k <;> simp [dictInsert, lookupAccount, h, ih]

theorem get_account_upsert_self (st : Accounts) (a : Account) :
    get_account (upsert_account st a) a.account_number = some a :=
  lookupAccount_dictInsert_self st a.account_number a

theorem storeNonneg_dictInsert (k : String) (a : Account) (ha : 0 ≤ a.balance_cents) :
    ∀ st : Accounts, StoreNonneg st → StoreNonneg (dictInsert st k a) := by
  intro st
  induction st with
  | nil =>
      intro _ p hp
      simp only [dictInsert, List.mem_singleton] at hp
      simp [hp, ha]
  | cons q rest ih =>
      obtain ⟨k', a'⟩ := q
      intro hst p hp
      have hrest : StoreNonneg rest := fun p hp => hst p (List.mem_cons_of_mem _ hp)
      by_cases h : k' = k
      · simp only [dictInsert, if_pos h, List.mem_cons] at hp
        rcases hp with hp | hp
        · simp [hp, ha]
        · exact hrest p hp
      · simp only [dictInsert, if_neg h, List.mem_cons] at hp
        rcases hp with hp | hp
        · exact hst p (by simp [hp])
        · exact ih hrest p hp

/-- C1: for every bound account and every deposit amount `d > 0` accepted by
the session deposit operation, and likewise by the optional initial deposit of
account creation, the resulting in-memory balance equals the previous balance
plus `d`, and immediately after the operation the record persisted in the
store under the account's number equals the in-memory record in every field. -/
theorem deposit_adds_and_persists (account : Account) (store : Accounts)
    (d : Int) (hd : 0 < d) :
    ((flow_session_step account store "1" d).account.balance_cents
        = account.balance_cents + d
      ∧ get_account (flow_session_step account store "1" d).store
          (flow_session_step account store "1" d).account.account_number
        = some (flow_session_step account store "1" d).account)
    ∧ ((initial_deposit account store d).1.balance_cents
        = account.balance_cents + d
      ∧ get_account (initial_deposit account store d).2
          (initial_deposit account store d).1.account_number
        = some (initial_deposit account store d).1) := by
  have h1 : ¬ d ≤ 0 := by omega
  refine ⟨⟨?_, ?_⟩, ?_, ?_⟩
  · simp [flow_session_step, h1]
  · simp only [flow_session_step, if_pos rfl, if_neg h1]
    exact get_account_upsert_self store _
  · simp [initial_deposit, hd]
  · simp only [initial_deposit, if_pos hd]
    exact get_account_upsert_self store _

theorem deposit_adds_and_persists_witness :
    (flow_session_step sampleAccount [] "1" 500).account.balance_cents
      = sampleAccount.balance_cents + 500 :=
  (deposit_adds_and_persists sampleAccount [] 500 (by decide)).1.1

/-- C2: for a withdraw amount `w` with `0 < w ≤ balance`, the session withdraw
operation leaves the balance at the previous balance minus `w` and persists
the updated record; for `w` above the balance it emits the
"insufficient funds" error and leaves the in-memory record and the store
unchanged. -/
theorem withdraw_subtracts_or_rejects (account : Account) (store : Accounts) (w : Int) :
    (0 < w → w ≤ account.balance_cents →
      (flow_session_step account store "2" w).account.balance_cents
          = account.balance_cents - w
        ∧ get_account (flow_session_step account store "2" w).store
            (flow_session_step account store "2" w).account.account_number
          = some (flow_session_step account store "2" w).account)
    ∧ (0 ≤ account.balance_cents → account.balance_cents < w →
      (flow_session_step account store "2" w).account = account
        ∧ (flow_session_step account store "2" w).store = store
        ∧ viewErrorMsg "Недостаточно средств."
            ∈ (flow_session_step account store "2" w).output) := by
  constructor
  · intro hw hle
    have h1 : ¬ w ≤ 0 := by omega
    have h2 : ¬ w > account.balance_cents := by omega
    refine ⟨?_, ?_⟩
    · simp [flow_session_step, h1, h2]
    · simp only [flow_session_step, if_pos rfl, if_neg h1, if_neg h2,
        reduceIte, String.reduceEq]
      exact get_account_upsert_self store _
  · intro hb hgt
    have h1 : ¬ w ≤ 0 := by omega
    have h2 : w > account.balance_cents := hgt
    simp [flow_session_step, h1, h2]

theorem withdraw_subtracts_or_rejects_witness :
    (flow_session_step sampleAccount [] "2" 40).account.balance_cents
        = sampleAccount.balance_cents - 40
      ∧ (flow_session_step sampleAccount [] "2" 400).account = sampleAccount :=
  ⟨((withdraw_subtracts_or_rejects sampleAccount [] 40).1 (by decide) (by decide)).1,
   ((withdraw_subtracts_or_rejects sampleAccount [] 400).2 (by decide) (by decide)).1⟩

/-- C3: account creation builds the new record with balance `0` and persists
it, and both the creation flow (including the optional initial deposit) and
every session-loop operation preserve the invariant that the bound account's
balance and every balance persisted in the store are nonnegative. -/
theorem balance_nonneg_invariant (account_number name surname id_number salt_hex
    hash_hex created_at : String) (store store' : Accounts) (account : Account)
    (choice : String) (amount deposit : Int) :
    ((mkNewAccount account_number name surname id_number salt_hex hash_hex
        created_at).balance_cents = 0)
    ∧ (StoreNonneg store →
        0 ≤ (flow_create_account account_number name surname id_number salt_hex
            hash_hex created_at store deposit).1.balance_cents
        ∧ StoreNonneg (flow_create_account account_number name surname id_number
            salt_hex hash_hex created_at store deposit).2)
    ∧ (0 ≤ account.balance_cents → StoreNonneg store' →
        0 ≤ (flow_session_step account store' choice amount).account.balance_cents
        ∧ StoreNonneg (flow_session_step account store' choice amount).store) := by
  refine ⟨rfl, ?_, ?_⟩
  · intro hst
    have hst1 : StoreNonneg (upsert_account store
        (mkNewAccount account_number name surname id_number salt_hex hash_hex created_at)) :=
      storeNonneg_dictInsert _ _ (by simp [mkNewAccount]) store hst
    show 0 ≤ (initial_deposit _ _ deposit).1.balance_cents ∧
      StoreNonneg (initial_deposit _ _ deposit).2
    by_cases hd : 0 < deposit
    · constructor
      · simp [initial_deposit, hd, mkNewAccount]
        omega
      · simp only [initial_deposit, if_pos hd]
        exact storeNonneg_dictInsert _ _ (by simp [mkNewAccount]; omega) _ hst1
    · constructor
      · simp [initial_deposit, hd, mkNewAccount]
      · simp only [initial_deposit, if_neg hd]
        exact hst1
  · intro hb hst
    unfold flow_session_step
    split_ifs with h1 h2 h3 h4 h5 h6 h7 <;> dsimp only
    · exact ⟨hb, hst⟩
    · refine ⟨by omega, storeNonneg_dictInsert _ _ (by dsimp only; omega) _ hst⟩
    · exact ⟨hb, hst⟩
    · exact ⟨hb, hst⟩
    · refine ⟨by omega, storeNonneg_dictInsert _ _ (by dsimp only; omega) _ hst⟩
    · exact ⟨hb, hst⟩
    · exact ⟨hb, hst⟩
    · exact ⟨hb, hst⟩

theorem balance_nonneg_invariant_witness :
    0 ≤ (flow_session_step sampleAccount [] "1" 5).account.balance_cents :=
  ((balance_nonneg_invariant "0000000123" "A" "B" "ID" "00" "11" "t" [] []
      sampleAccount "1" 5 0).2.2
    (by decide) (fun p hp => by simp at hp)).1

/-- C6: for every account record `a`, `get_account a.account_number` invoked
on the store produced by `upsert_account a`, with no intervening writes,
returns a record equal to `a` in all fields. -/
theorem get_account_after_upsert (st : Accounts) (a : Account) :
    get_account (upsert_account st a) a.account_number = some a :=
  get_account_upsert_self st a

theorem lookupJson_any (kvs : List (String × Json)) (key : String) (v : Json)
    (h : lookupJson kvs key = some v) :
    (kvs.any (fun p => p.1 == key)) = true := by
  induction kvs with
  | nil => simp [lookupJson] at h
  | cons q rest ih =>
      obtain ⟨k', v'⟩ := q
      by_cases hk : k' = key
      · simp [hk]
      · simp only [lookupJson, if_neg hk] at h
        simp [ih h]

/-- C4 counterexample: on a backing file with corrupt or foreign (non-JSON)
content, `load` raises the JSON decoding error instead of returning the empty
document. -/
theorem load_notJson_raises :
    load FileState.notJson = Except.error PyError.jsonDecodeError := rfl

/-- C4 (amended): on a missing backing file, on an empty JSON object, and on a
document whose `accounts` field is not a mapping, `load` returns the empty
document `\x7b"accounts": \x7b\x7d\x7d` without raising; on corrupt or
foreign (non-JSON) content the JSON decoding error propagates to the
caller. -/
theorem load_shape_tolerant :
    load FileState.absent = Except.ok emptyDoc
    ∧ load (FileState.json (Json.obj [])) = Except.ok emptyDoc
    ∧ (∀ (kvs : List (String × Json)) (v : Json),
        lookupJson kvs "accounts" = some v → isDict v = false →
        load (FileState.json (Json.obj kvs)) = Except.ok emptyDoc)
    ∧ load FileState.notJson = Except.error PyError.jsonDecodeError := by
  refine ⟨rfl, rfl, ?_, rfl⟩
  intro kvs v hlook hdict
  simp [load, pyContains, lookupJson_any kvs "accounts" v hlook,
    pySubscript, hlook, hdict]

theorem load_shape_tolerant_witness :
    load (FileState.json (Json.obj [("accounts", Json.arr [])])) = Except.ok emptyDoc :=
  load_shape_tolerant.2.2.1 [("accounts", Json.arr [])] (Json.arr []) rfl rfl

theorem digitChar_isDigit (m : Nat) (hm : m < 10) : (digitChar m).isDigit = true := by
  interval_cases m <;> decide

theorem natStrAux_length_le (fuel : Nat) :
    ∀ k n : Nat, n < fuel → 1 ≤ k → n < 10 ^ k → (natStrAux fuel n).length ≤ k := by
  induction fuel with
  | zero => intro k n hn _ _; omega
  | succ fuel ih =>
      intro k n hn hk hpow
      by_cases h10 : n < 10
      · simp [natStrAux, h10, hk]
      · obtain ⟨k', rfl⟩ : ∃ k', k = k' + 1 := ⟨k - 1, by omega⟩
        have hk' : 1 ≤ k' := by
          by_contra hc
          have : k' = 0 := by omega
          subst this
          simp at hpow
          omega
        have hdiv : n / 10 < 10 ^ k' := by
          have := (Nat.div_lt_iff_lt_mul (by omega : 0 < 10)).mpr
            (by rw [← pow_succ]; exact hpow)
          exact this
        have hfuel : n / 10 < fuel := by
          have := Nat.div_lt_self (by omega : 0 < n) (by omega : 1 < 10)
          omega
        simp only [natStrAux, if_neg h10, List.length_append, List.length_singleton]
        have := ih k' (n / 10) hfuel hk' hdiv
        omega

theorem natStrAux_digits (fuel : Nat) :
    ∀ (n : Nat) (c : Char), c ∈ natStrAux fuel n → c.isDigit = true := by
  induction fuel with
  | zero => intro n c hc; simp [natStrAux] at hc
  | succ fuel ih =>
      intro n c hc
      by_cases h10 : n < 10
      · simp only [natStrAux, if_pos h10, List.mem_singleton] at hc
        subst hc
        exact digitChar_isDigit n h10
      · simp only [natStrAux, if_neg h10, List.mem_append, List.mem_singleton] at hc
        rcases hc with hc | hc
        · exact ih (n / 10) c hc
        · subst hc
          exact digitChar_isDigit (n % 10) (Nat.mod_lt n (by omega))

theorem natStr_length_le (k n : Nat) (hk : 1 ≤ k) (h : n < 10 ^ k) :
    (natStr n).length ≤ k :=
  natStrAux_length_le (n + 1) k n (by omega) hk h

theorem natStr_digits (n : Nat) (c : Char) (hc : c ∈ natStr n) : c.isDigit = true :=
  natStrAux_digits (n + 1) n c hc

/-- C8: every string returned by `generate_unique_account_number` with
`digits = 10`, under the `secrets.randbelow(10 ** 10)` guarantee that every
draw is below `10 ^ 10`, consists of exactly 10 ASCII digits and is not a key
of any account present in the store consulted by the existence check. -/
theorem generated_number_valid (st : Accounts) (draws : List Nat) (acc : String)
    (hdraws : ∀ n ∈ draws, n < 10 ^ 10)
    (h : generate_unique_account_number st 10 draws = some acc) :
    acc.toList.length = 10 ∧ (∀ c ∈ acc.toList, c.isDigit = true)
      ∧ account_exists st acc = false := by
  induction draws with
  | nil => simp [generate_unique_account_number] at h
  | cons n rest ih =>
      have hn : n < 10 ^ 10 := hdraws n (by simp)
      have hstep : generate_unique_account_number st 10 (n :: rest)
          = if account_exists st (String.mk (zfill 10 (natStr n))) then
              generate_unique_account_number st 10 rest
            else some (String.mk (zfill 10 (natStr n))) := rfl
      rw [hstep] at h
      by_cases hex : account_exists st (String.mk (zfill 10 (natStr n))) = true
      · rw [if_pos hex] at h
        exact ih (fun m hm => hdraws m (by simp [hm])) h
      · rw [if_neg hex] at h
        obtain rfl : String.mk (zfill 10 (natStr n)) = acc := by
          simpa using h
        refine ⟨?_, ?_, ?_⟩
        · show (zfill 10 (natStr n)).length = 10
          have hlen := natStr_length_le 10 n (by omega) hn
          simp only [zfill, List.length_append, List.length_replicate]
          omega
        · intro c hc
          have hc' : c ∈ zfill 10 (natStr n) := hc
          simp only [zfill, List.mem_append, List.mem_replicate] at hc'
          rcases hc' with hc' | hc'
          · rw [hc'.2]; decide
          · exact natStr_digits n c hc'
        · simpa using hex

theorem generated_number_valid_witness :
    (String.mk (zfill 10 (natStr 5))).toList.length = 10
      ∧ account_exists [] (String.mk (zfill 10 (natStr 5))) = false := by
  have h := generated_number_valid [] [5] (String.mk (zfill 10 (natStr 5)))
    (by decide) (by rfl)
  exact ⟨h.1, h.2.2⟩

theorem hexVal_hexChar (m : Nat) (hm : m < 16) : hexVal (hexChar m) = some m := by
  interval_cases m <;> decide

theorem hexChar_ne_space (m : Nat) (hm : m < 16) : ¬ hexChar m = ' ' := by
  interval_cases m <;> decide

theorem bytesFromHex_roundtrip (bs : List Nat) (h : ∀ b ∈ bs, b < 256) :
    bytesFromHex ((bs.map byteToHexPair).flatten) = some bs := by
  induction bs with
  | nil => rfl
  | cons b rest ih =>
      have hb : b < 256 := h b (by simp)
      have hhi : b / 16 < 16 := by omega
      have hlo : b % 16 < 16 := Nat.mod_lt _ (by omega)
      have hrest := ih (fun x hx => h x (by simp [hx]))
      show bytesFromHex (hexChar (b / 16) :: hexChar (b % 16)
        :: (rest.map byteToHexPair).flatten) = some (b :: rest)
      rw [bytesFromHex, if_neg (hexChar_ne_space (b / 16) hhi)]
      simp only [hexVal_hexChar (b / 16) hhi, hexVal_hexChar (b % 16) hlo, hrest,
        Option.map_some']
      rw [Nat.div_add_mod b 16]

theorem sha256_bytes_lt (msg : List Nat) : ∀ b ∈ sha256 msg, b < 256 := by
  intro b hb
  simp only [sha256, List.mem_flatten, List.mem_map] at hb
  obtain ⟨l, ⟨w, _, rfl⟩, hbl⟩ := hb
  simp only [wordToBytes, List.mem_cons, List.not_mem_nil, or_false] at hbl
  rcases hbl with rfl | rfl | rfl | rfl <;> exact Nat.mod_lt _ (by omega)

/-- C5: for every PIN string of 4 to 8 digits, verifying that PIN against the
(salt-hex, hash-hex) pair that `make_pin_record` produced for the same PIN
returns `True`. -/
theorem verify_pin_of_make_pin_record (pin : String) (salt : List Nat)
    (hdigits : ∀ c ∈ pin.toList, c.isDigit = true)
    (hlen4 : 4 ≤ pin.toList.length) (hlen8 : pin.toList.length ≤ 8)
    (hsalt16 : salt.length = 16) (hsalt : ∀ b ∈ salt, b < 256) :
    verify_pin pin (make_pin_record pin salt).1 (make_pin_record pin salt).2
      = some true := by
  have h1 : bytesFromHex (bytesToHex salt).toList = some salt :=
    bytesFromHex_roundtrip salt hsalt
  have h2 : bytesFromHex (bytesToHex (hash_pin pin salt)).toList
      = some (hash_pin pin salt) :=
    bytesFromHex_roundtrip _ (sha256_bytes_lt _)
  simp only [verify_pin, make_pin_record, h1, h2, compare_digest]
  simp

theorem verify_pin_of_make_pin_record_witness :
    verify_pin "1234" (make_pin_record "1234" (List.range 16)).1
      (make_pin_record "1234" (List.range 16)).2 = some true :=
  verify_pin_of_make_pin_record "1234" (List.range 16) (by decide) (by decide)
    (by decide) (by decide) (by decide)

theorem divHalfEven_close (c d : Nat) (hd : 0 < d) :
    |(c : ℚ) / (d : ℚ) - (divHalfEven c d : ℚ)| ≤ 1 / 2 := by
  have hdq : (0 : ℚ) < d := by exact_mod_cast hd
  have hmod : d * (c / d) + c % d = c := Nat.div_add_mod c d
  have hr : c % d < d := Nat.mod_lt _ hd
  have hcq : (c : ℚ) = (c / d : Nat) * d + (c % d : Nat) := by
    have h := congrArg (fun n : Nat => (n : ℚ)) hmod
    push_cast at h
    linarith
  have hdiv : (c : ℚ) / d = (c / d : Nat) + (c % d : Nat) / d := by
    rw [hcq]; field_simp
  have hrnn : (0 : ℚ) ≤ (c % d : Nat) / d := by positivity
  have hrlt : ((c % d : Nat) : ℚ) / d < 1 := by
    rw [div_lt_one hdq]; exact_mod_cast hr
  rw [hdiv, abs_sub_le_iff]
  simp only [divHalfEven]
  split_ifs with h1 h2 h3
  · have hle : 2 * (c % d) ≤ d := by omega
    have hcast : ((2 * (c % d) : Nat) : ℚ) ≤ ((d : Nat) : ℚ) := by exact_mod_cast hle
    have : ((c % d : Nat) : ℚ) / d ≤ 1 / 2 := by
      rw [div_le_div_iff hdq (by norm_num : (0:ℚ) < 2)]
      push_cast at hcast ⊢
      linarith
    constructor <;> push_cast <;> linarith
  · have hle : d ≤ 2 * (c % d) := by omega
    have hcast : ((d : Nat) : ℚ) ≤ ((2 * (c % d) : Nat) : ℚ) := by exact_mod_cast hle
    have : (1 : ℚ) / 2 ≤ ((c % d : Nat) : ℚ) / d := by
      rw [div_le_div_iff (by norm_num : (0:ℚ) < 2) hdq]
      push_cast at hcast ⊢
      linarith
    constructor <;> push_cast <;> linarith
  · have h2r : 2 * (c % d) = d := by omega
    have heq : ((c % d : Nat) : ℚ) / d = 1 / 2 := by
      rw [div_eq_div_iff hdq.ne' (by norm_num : (2:ℚ) ≠ 0)]
      have hq : ((2 * (c % d) : Nat) : ℚ) = ((d : Nat) : ℚ) := by exact_mod_cast h2r
      push_cast at hq ⊢
      linarith
    constructor <;> push_cast <;> linarith
  · have h2r : 2 * (c % d) = d := by omega
    have heq : ((c % d : Nat) : ℚ) / d = 1 / 2 := by
      rw [div_eq_div_iff hdq.ne' (by norm_num : (2:ℚ) ≠ 0)]
      have hq : ((2 * (c % d) : Nat) : ℚ) = ((d : Nat) : ℚ) := by exact_mod_cast h2r
      push_cast at hq ⊢
      linarith
    constructor <;> push_cast <;> linarith

theorem divHalfEven_zero (d : Nat) (hd : 0 < d) : divHalfEven 0 d = 0 := by
  simp only [divHalfEven, Nat.zero_div, Nat.zero_mod]
  rw [if_pos]
  omega

theorem quantizeToUnit_zero (e : Int) : quantizeToUnit 0 e = some 0 := by
  simp only [quantizeToUnit]
  by_cases he : 0 ≤ e
  · rw [if_pos he, Nat.zero_mul]
    rw [if_pos (by decide : numDigits 0 ≤ 28)]
  · rw [if_neg he, divHalfEven_zero _ (pow_pos (by omega) _)]
    rw [if_pos (by decide : numDigits 0 ≤ 28)]

theorem quantizeToUnit_some (c : Nat) (e : Int) (q0 : Nat)
    (hq : quantizeToUnit c e = some q0) :
    (0 ≤ e → q0 = c * 10 ^ e.toNat)
      ∧ (e < 0 → q0 = divHalfEven c (10 ^ (-e).toNat)) := by
  simp only [quantizeToUnit] at hq
  constructor
  · intro he
    rw [if_pos he] at hq
    split_ifs at hq
    simp only [Option.some.injEq] at hq
    exact hq.symm
  · intro he
    rw [if_neg (by omega : ¬ (0 : Int) ≤ e)] at hq
    split_ifs at hq
    simp only [Option.some.injEq] at hq
    exact hq.symm

theorem money_nearest (sg : Bool) (c : Nat) (e : Int) (q : Int)
    (hdig : numDigits (c * 100) ≤ 28)
    (hacc : moneyFromDec sg c e = .accept q) :
    |(100 * decValue (Dec.num sg c e) : ℚ) - q| ≤ 1 / 2 := by
  rw [moneyFromDec] at hacc
  by_cases hsgn : sg ∧ 0 < c
  · rw [if_pos hsgn] at hacc
    exact absurd hacc (by simp)
  · rw [if_neg hsgn, show ctxRound (c * 100) e = (c * 100, e) from
      by rw [ctxRound, if_pos hdig]] at hacc
    simp only [quantizePhase] at hacc
    split_ifs at hacc with hov
    cases hq : quantizeToUnit (c * 100) e with
    | none => rw [hq] at hacc; exact absurd hacc (by simp)
    | some q0 =>
        rw [hq] at hacc
        simp only [MoneyResult.accept.injEq] at hacc
        have hqv := quantizeToUnit_some _ _ _ hq
        by_cases hsg : sg = true
        · have hc0 : c = 0 := by
            by_contra hc
            exact hsgn ⟨hsg, by omega⟩
          subst hc0
          have hq00 : quantizeToUnit 0 e = some q0 := by
            simpa using hq
          rw [quantizeToUnit_zero e] at hq00
          have hq0 : q0 = 0 := by
            simpa using hq00.symm
          subst hq0
          rw [← hacc]
          simp [decValue, signApply, hsg]
        · have hsgf : sg = false := by
            cases sg
            · rfl
            · exact absurd rfl hsg
          subst hsgf
          rw [← hacc]
          simp only [signApply, if_neg (by decide : ¬ false = true)]
          simp only [decValue, if_neg (by decide : ¬ false = true), one_mul]
          by_cases he : 0 ≤ e
          · have hqval : q0 = c * 100 * 10 ^ e.toNat := hqv.1 he
            rw [hqval]
            have hzero : 100 * ((c : ℚ) * (10 : ℚ) ^ (e : Int))
                - (((c * 100 * 10 ^ e.toNat : Nat) : Int) : ℚ) = 0 := by
              push_cast
              rw [← zpow_natCast (10 : ℚ) e.toNat, Int.toNat_of_nonneg he]
              ring
            rw [hzero]
            norm_num
          · have hqval : q0 = divHalfEven (c * 100) (10 ^ (-e).toNat) :=
              hqv.2 (by omega)
            have hD : (0 : ℕ) < 10 ^ (-e).toNat := pow_pos (by omega) _
            have hval : 100 * ((c : ℚ) * (10 : ℚ) ^ (e : Int))
                = ((c * 100 : Nat) : ℚ) / ((10 ^ (-e).toNat : Nat) : ℚ) := by
              push_cast
              rw [div_eq_mul_inv, ← zpow_natCast (10 : ℚ) (-e).toNat,
                Int.toNat_of_nonneg (by omega : (0 : Int) ≤ -e), ← zpow_neg, neg_neg]
              ring
            have hcc : (((divHalfEven (c * 100) (10 ^ (-e).toNat) : Nat) : Int) : ℚ)
                = ((divHalfEven (c * 100) (10 ^ (-e).toNat) : Nat) : ℚ) := by
              push_cast
              ring
            rw [hqval, hcc, hval]
            exact divHalfEven_close (c * 100) (10 ^ (-e).toNat) hD

theorem pyIsSpace_dotComma (c : Char) :
    pyIsSpace (if c = '.' then ',' else c) = pyIsSpace c := by
  by_cases h : c = '.'
  · rw [if_pos h, h]
    decide
  · rw [if_neg h]

theorem pyStrip_map_dotComma (l : List Char) :
    pyStrip (l.map (fun c => if c = '.' then ',' else c))
      = (pyStrip l).map (fun c => if c = '.' then ',' else c) := by
  have hfun : ((fun c => pyIsSpace c) ∘ (fun c => if c = '.' then ',' else c))
      = fun c => pyIsSpace c := funext fun c => pyIsSpace_dotComma c
  simp only [pyStrip, List.dropWhile_map, List.reverse_map, hfun]

theorem commaToDot_map_dotComma (l : List Char) :
    commaToDot (l.map (fun c => if c = '.' then ',' else c)) = commaToDot l := by
  simp only [commaToDot, List.map_map]
  congr 1
  funext c
  by_cases h1 : c = '.'
  · subst h1; rfl
  · by_cases h2 : c = ','
    · subst h2; rfl
    · simp [Function.comp, h1, h2]

/-- C7 (amended): the currency prompt treats a comma exactly as a dot, rejects
negative, NaN, infinite and non-numeric inputs by re-prompting, parses
"100,50" to 10050 minor units while rejecting "-5" and "abc", and every
accepted amount whose coefficient times 100 stays within the 28-significant-
digit context precision is converted to cents by rounding to the nearest
whole minor unit; amounts needing more than 28 significant digits are first
rounded to context precision, which can move the result off the nearest
minor unit. -/
theorem money_prompt_behaviour :
    ask_money_amount "100,50" = MoneyResult.accept 10050
    ∧ ask_money_amount "-5" = MoneyResult.reject
    ∧ ask_money_amount "abc" = MoneyResult.reject
    ∧ (∀ s : String,
        ask_money_amount (String.mk (s.toList.map (fun c => if c = '.' then ',' else c)))
          = ask_money_amount s)
    ∧ (∀ s : String, parseDec (commaToDot (pyStrip s.toList)) = none →
        ask_money_amount s = MoneyResult.reject)
    ∧ (∀ s : String, parseDec (commaToDot (pyStrip s.toList)) = some Dec.nan →
        ask_money_amount s = MoneyResult.reject)
    ∧ (∀ (s : String) (b : Bool),
        parseDec (commaToDot (pyStrip s.toList)) = some (Dec.inf b) →
        ask_money_amount s = MoneyResult.reject)
    ∧ (∀ (s : String) (c : Nat) (e : Int),
        parseDec (commaToDot (pyStrip s.toList)) = some (Dec.num true c e) → 0 < c →
        ask_money_amount s = MoneyResult.reject)
    ∧ (∀ (s : String) (sg : Bool) (c : Nat) (e : Int) (q : Int),
        parseDec (commaToDot (pyStrip s.toList)) = some (Dec.num sg c e) →
        numDigits (c * 100) ≤ 28 →
        ask_money_amount s = MoneyResult.accept q →
        |(100 * decValue (Dec.num sg c e) : ℚ) - q| ≤ 1 / 2) := by
  refine ⟨by decide, by decide, by decide, ?_, ?_, ?_, ?_, ?_, ?_⟩
  · intro s
    have h1 : (String.mk (s.toList.map (fun c => if c = '.' then ',' else c))).toList
        = s.toList.map (fun c => if c = '.' then ',' else c) := rfl
    unfold ask_money_amount
    rw [h1, pyStrip_map_dotComma, commaToDot_map_dotComma]
  · intro s h
    unfold ask_money_amount
    rw [h]
  · intro s h
    unfold ask_money_amount
    rw [h]
  · intro s b h
    unfold ask_money_amount
    rw [h]
  · intro s c e h hc
    unfold ask_money_amount
    rw [h]
    show moneyFromDec true c e = MoneyResult.reject
    rw [moneyFromDec, if_pos ⟨rfl, hc⟩]
  · intro s sg c e q hparse hdig hacc
    apply money_nearest sg c e q hdig
    unfold ask_money_amount at hacc
    rw [hparse] at hacc
    exact hacc

theorem money_prompt_behaviour_witness :
    |(100 * decValue (Dec.num false 10050 (-2)) : ℚ) - 10050| ≤ 1 / 2 :=
  money_prompt_behaviour.2.2.2.2.2.2.2.2 "100,50" false 10050 (-2) 10050
    (by decide) (by decide) (by decide)

/-- C7 counterexample: the input "0.125000000000000000000000000001" is
accepted as 12 cents although 12 is not the nearest whole minor unit: the
exact value of 100 times the entered amount is 12.5 plus 10 to the -28, whose
distance to 12 exceeds one half (the 28-significant-digit context rounding of
the `Decimal` multiplication discards the digit that breaks the tie, and the
half-even quantize then rounds down). -/
theorem money_prompt_counterexample :
    ask_money_amount "0.125000000000000000000000000001" = MoneyResult.accept 12
    ∧ parseDec (commaToDot (pyStrip ("0.125000000000000000000000000001").toList))
        = some (Dec.num false 125000000000000000000000000001 (-30))
    ∧ 1 / 2
        < |(100 * decValue (Dec.num false 125000000000000000000000000001 (-30)) : ℚ)
            - 12| := by
  refine ⟨by decide, by decide, ?_⟩
  have hval : (100 * decValue (Dec.num false 125000000000000000000000000001 (-30)) : ℚ)
      - 12 = 1 / 2 + 1 / 10 ^ 28 := by
    have hz : ((10 : ℚ) ^ ((-30 : Int)) : ℚ) = ((10 : ℚ) ^ (30 : Nat))⁻¹ := by
      rw [show ((-30 : Int)) = -((30 : Nat) : Int) by norm_num, zpow_neg, zpow_natCast]
    simp only [decValue, if_neg (by decide : ¬ false = true)]
    rw [hz]
    norm_num
  rw [hval, abs_of_pos (by positivity)]
  norm_num

end ATM

namespace LessonIO

theorem getLast?_append_singleton (l : List Char) (a : Char) :
    (l ++ [a]).getLast? = some a := by
  simp

theorem dropLast_append_singleton (l : List Char) (a : Char) :
    (l ++ [a]).dropLast = l := by
  simp

/-- C9: `stdinRead` raises `EOFError` exactly when `readline()` returned the
empty string; any non-empty line is returned with exactly one trailing newline
removed, plus one carriage return immediately before it when present, and a
line with no trailing newline comes back unchanged; nothing else raises. -/
theorem stdin_eof_and_strip :
    (∀ line : List Char, (∃ e, stdinRead line = .error e) ↔ line = [])
    ∧ (∀ l : List Char, stdinRead (l ++ ['\r', '\n']) = .ok l)
    ∧ (∀ l : List Char, l.getLast? ≠ some '\r' → stdinRead (l ++ ['\n']) = .ok l)
    ∧ (∀ line : List Char, line ≠ [] → line.getLast? ≠ some '\n' →
        stdinRead line = .ok line) := by
  refine ⟨?_, ?_, ?_, ?_⟩
  · intro line
    constructor
    · rintro ⟨e, he⟩
      by_cases h : line = []
      · exact h
      · simp [stdinRead, h] at he
    · intro h
      exact ⟨(), by simp [stdinRead, h]⟩
  · intro l
    have hne : l ++ ['\r', '\n'] ≠ [] := by simp
    have hsplit : l ++ ['\r', '\n'] = (l ++ ['\r']) ++ ['\n'] := by simp
    rw [stdinRead, if_neg hne, hsplit, stripNewline,
      if_pos (getLast?_append_singleton (l ++ ['\r']) '\n'),
      dropLast_append_singleton (l ++ ['\r']) '\n',
      if_pos (getLast?_append_singleton l '\r'),
      dropLast_append_singleton l '\r']
  · intro l hl
    have hne : l ++ ['\n'] ≠ [] := by simp
    rw [stdinRead, if_neg hne, stripNewline,
      if_pos (getLast?_append_singleton l '\n'),
      dropLast_append_singleton l '\n', if_neg hl]
  · intro line hne hlast
    rw [stdinRead, if_neg hne, stripNewline, if_neg hlast]

theorem stdin_eof_and_strip_witness :
    stdinRead ['h', 'i', '\n'] = .ok ['h', 'i']
      ∧ stdinRead ['h', '\r', '\n'] = .ok ['h'] :=
  ⟨stdin_eof_and_strip.2.2.1 ['h', 'i'] (by decide),
   stdin_eof_and_strip.2.1 ['h']⟩

end LessonIO

namespace Fan

theorem appStep_ok_range (mode : Int) (c : FanCmd) (m : Int)
    (h0 : 0 ≤ mode) (h3 : mode ≤ 3) (h : appStep mode c = .ok m) :
    0 ≤ m ∧ m ≤ 3 := by
  cases c <;>
    simp only [appStep, change_mode, fan_set_mode, MIN_MODE, MAX_MODE] at h <;>
    split_ifs at h <;> simp only [Except.ok.injEq] at h <;> omega

/-- C10: starting from mode `0`, after any sequence of `up`, `down` and
`set_mode` commands the fan's mode stays in `0..3`; `up` caps the mode at `3`,
`down` floors it at `0`, and `set_mode` raises `ValueError` for any target
outside `0..3`, leaving the mode unchanged. -/
theorem fan_mode_invariant :
    (∀ cmds : List FanCmd, 0 ≤ runCmds 0 cmds ∧ runCmds 0 cmds ≤ 3)
    ∧ (∀ mode : Int, 0 ≤ mode → mode ≤ 3 →
        appStep mode .up = .ok (min (mode + 1) 3)
        ∧ appStep mode .down = .ok (max (mode - 1) 0))
    ∧ (∀ mode m : Int, 0 ≤ mode → mode ≤ 3 → m < 0 ∨ 3 < m →
        appStep mode (.set m) = .error ()) := by
  refine ⟨?_, ?_, ?_⟩
  · have key : ∀ (cmds : List FanCmd) (mode : Int), 0 ≤ mode → mode ≤ 3 →
        0 ≤ runCmds mode cmds ∧ runCmds mode cmds ≤ 3 := by
      intro cmds
      induction cmds with
      | nil => intro mode h0 h3; exact ⟨h0, h3⟩
      | cons c cs ih =>
          intro mode h0 h3
          rw [runCmds]
          cases hstep : appStep mode c with
          | ok m =>
              have hm := appStep_ok_range mode c m h0 h3 hstep
              exact ih m hm.1 hm.2
          | error e => exact ih mode h0 h3
    intro cmds
    exact key cmds 0 (by omega) (by omega)
  · intro mode h0 h3
    constructor
    · simp only [appStep, change_mode, fan_set_mode, MIN_MODE, MAX_MODE]
      split_ifs <;> first
        | (exfalso; omega)
        | (congr 1; omega)
    · simp only [appStep, change_mode, fan_set_mode, MIN_MODE, MAX_MODE]
      split_ifs <;> first
        | (exfalso; omega)
        | (congr 1; omega)
  · intro mode m h0 h3 hm
    have hne : ¬ m = mode := by omega
    simp only [appStep, change_mode, fan_set_mode, MIN_MODE, MAX_MODE,
      if_neg hne, if_pos hm]

theorem fan_mode_invariant_witness :
    appStep 3 FanCmd.up = .ok (min (3 + 1) 3)
      ∧ appStep 0 (FanCmd.set 7) = .error () :=
  ⟨(fan_mode_invariant.2.1 3 (by decide) (by decide)).1,
   fan_mode_invariant.2.2 0 7 (by decide) (by decide) (by decide)⟩

end Fan
